import Mathlib

/-!
Verification development for the ISO document navigator's ingestion and
retrieval pipeline (Supabase edge functions
`process-document/index.ts` and the chat/retrieval function).

Strings are modelled as `List Char`.  JavaScript's `\s` whitespace class is
modelled by the four common whitespace characters; `String.prototype.length`
(UTF-16 units) is modelled by codepoint count.  Database tables are modelled
as lists of rows in storage order; the two fallible external collaborators
(the Postgres full-text matcher and batch-insert failures) are modelled as
function parameters.
-/

/-- Whitespace test modelling the JavaScript `\s` class. -/
def isWs (c : Char) : Bool :=
  c == ' ' || c == '\n' || c == '\t' || c == '\r'

/-- Sentence-ending punctuation of the chunker's split regex `(?<=[.!?])\s+`. -/
def isPunct (c : Char) : Bool :=
  c == '.' || c == '!' || c == '?'

/-- JavaScript `String.prototype.trim`: strip whitespace at both ends. -/
def trim (l : List Char) : List Char :=
  ((l.dropWhile isWs).reverse.dropWhile isWs).reverse

/-- Is the next character a whitespace character?  (`\s` lookahead used to
decide whether a split match starts right after a punctuation char.) -/
def wsAhead : List Char → Bool
  | [] => false
  | d :: _ => isWs d

/-- Worker for `splitSentences`, a single-pass scanner equivalent to
`text.split(/(?<=[.!?])\s+/)`: in normal mode (`sep = false`) it accumulates
the current piece (reversed) in `acc` and closes the piece when a
punctuation character is followed by whitespace; in separator mode
(`sep = true`) it consumes the rest of the matched whitespace run. -/
def splitSentencesGo (sep : Bool) (acc : List Char) : List Char → List (List Char)
  | [] => [acc.reverse]
  | c :: rest =>
    match sep with
    | false =>
      if isPunct c && wsAhead rest then
        (c :: acc).reverse :: splitSentencesGo true [] rest
      else
        splitSentencesGo false (c :: acc) rest
    | true =>
      if isWs c then splitSentencesGo true acc rest
      else splitSentencesGo false (c :: acc) rest

/-- `text.split(/(?<=[.!?])\s+/)` from `chunkText` in
`process-document/index.ts`. -/
def splitSentences (text : List Char) : List (List Char) :=
  splitSentencesGo false [] text

/-- Worker for `chunkText`: the greedy sentence packer.  `currentChunk`
accumulates sentences; a sentence whose length added to the current chunk's
length exceeds `maxChunkSize` (while the current chunk is nonempty) closes
the chunk, and the new chunk is started from that sentence alone. -/
def chunkTextGo (maxChunkSize : Nat) : List Char → List (List Char) → List (List Char)
  | currentChunk, [] =>
      if trim currentChunk ≠ [] then [trim currentChunk] else []
  | currentChunk, sentence :: rest =>
      if maxChunkSize < currentChunk.length + sentence.length ∧ currentChunk ≠ [] then
        trim currentChunk :: chunkTextGo maxChunkSize sentence rest
      else
        chunkTextGo maxChunkSize
          (currentChunk ++ (if currentChunk = [] then [] else [' ']) ++ sentence) rest

/-- `chunkText(text, maxChunkSize)` from `process-document/index.ts`
(the source's default argument is 1500; call sites there use the default). -/
def chunkText (text : List Char) (maxChunkSize : Nat) : List (List Char) :=
  chunkTextGo maxChunkSize [] (splitSentences text)

/-- A section record as produced by `extractSections`: the grouping used to
stamp chunk metadata.  (`extractSections` pushes only records whose `content`
is `currentContent.trim()` and nonempty.) -/
structure SectionRec where
  «section» : List Char
  subsection : List Char
  content : List Char
  page : Nat
deriving DecidableEq

/-- A row of the `iso_chunks` table as built by the ingestion `serve`
handler. -/
structure ChunkRow where
  document_id : Nat
  chunk_index : Nat
  content : List Char
  «section» : List Char
  subsection : List Char
  page_number : Nat
deriving DecidableEq

/-- Inner loop of the sections branch: rows for the chunks of one section,
with the running `chunkIndex` threaded through as `i`. -/
def rowsFor (documentId : Nat) (sec : SectionRec) : Nat → List (List Char) → List ChunkRow
  | _, [] => []
  | i, c :: cs =>
      ⟨documentId, i, c, sec.«section», sec.subsection, sec.page⟩ ::
        rowsFor documentId sec (i + 1) cs

/-- Outer loop of the sections branch (`for (const section of sections)`),
threading the document-wide `chunkIndex` across sections. -/
def rowsSections (documentId : Nat) : Nat → List SectionRec → List ChunkRow
  | _, [] => []
  | i, sec :: rest =>
      rowsFor documentId sec i (chunkText sec.content 1500) ++
        rowsSections documentId (i + (chunkText sec.content 1500).length) rest

/-- Fallback branch (`sections.length === 0`): chunk the whole extracted
text, with `chunkIndex` and the per-chunk page counter both incrementing. -/
def rowsFallback (documentId : Nat) : Nat → Nat → List (List Char) → List ChunkRow
  | _, _, [] => []
  | i, page, c :: cs =>
      ⟨documentId, i, c, ['1'], [], page⟩ :: rowsFallback documentId (i + 1) (page + 1) cs

/-- `allChunks` as constructed by the ingestion `serve` handler (lines
190–220 of `process-document/index.ts`); `sections` stands for
`extractSections(extractedText)`. -/
def buildAllChunks (documentId : Nat) (sections : List SectionRec)
    (extractedText : List Char) : List ChunkRow :=
  if 0 < sections.length then rowsSections documentId 0 sections
  else rowsFallback documentId 0 1 (chunkText extractedText 1500)

/-- The insert batch size of the ingestion handler (`const batchSize = 50`). -/
def batchSize : Nat := 50

/-- `allChunks.slice(i, i + batchSize)` over the whole list: the batches
inserted one `insert` call at a time. -/
def toBatches : List ChunkRow → List (List ChunkRow)
  | [] => []
  | l@(_ :: _) => l.take batchSize :: toBatches (l.drop batchSize)
termination_by l => l.length
decreasing_by
  simp_all [batchSize]
  omega

/-- The sequential batch-insert loop.  `state` is the visible chunk table,
`i` the batch number, and `fails i = true` means the `i`-th `insert` call
returns an error (the loop then throws, leaving `state` as is). -/
def insertBatches (fails : Nat → Bool) : List ChunkRow → Nat → List (List ChunkRow) → List ChunkRow × Bool
  | state, _, [] => (state, true)
  | state, i, b :: bs =>
      if fails i then (state, false) else insertBatches fails (state ++ b) (i + 1) bs

/-- The chunk-replacement sequence of the ingestion handler (lines 224–242):
first delete every existing chunk of the document, then insert the new
chunks in batches of 50.  Returns the visible table and a success flag. -/
def runPut (documentId : Nat) (table : List ChunkRow) (newChunks : List ChunkRow)
    (fails : Nat → Bool) : List ChunkRow × Bool :=
  insertBatches fails (table.filter (fun r => r.document_id != documentId)) 0
    (toBatches newChunks)

/-- The chunk rows of one document, in storage order. -/
def docRows (documentId : Nat) (table : List ChunkRow) : List ChunkRow :=
  table.filter (fun r => r.document_id == documentId)

/-- Error message thrown when the extracted text is below the 50-character
threshold. -/
def extractionErrMsg : List Char :=
  "Could not extract meaningful text from the document. The PDF might be image-based and require OCR.".data

/-- Error message thrown when a batch insert fails. -/
def insertErrMsg : List Char :=
  "Failed to insert chunks".data

/-- Outcome of one ingestion request: the visible chunk table, the update
applied to the document row's `processed` column (if any statement ran), and
the HTTP response body (`ok` carries `chunks_created`). -/
instance : DecidableEq (Except (List Char) Nat) := fun
  | .ok a, .ok b => decidable_of_iff (a = b) (by simp)
  | .ok _, .error _ => isFalse (by simp)
  | .error _, .ok _ => isFalse (by simp)
  | .error a, .error b => decidable_of_iff (a = b) (by simp)

structure ServeResult where
  table : List ChunkRow
  documentUpdate : Option Bool
  response : Except (List Char) Nat
deriving DecidableEq

/-- Is the response a success response? -/
def respIsOk : Except (List Char) Nat → Bool
  | .ok _ => true
  | .error _ => false

/-- The ingestion `serve` handler from the length check onward (lines
166–258 of `process-document/index.ts`): reject extracted text under 50
characters, otherwise build `allChunks` (with `sections` standing for
`extractSections(extractedText)`), delete-and-insert them, and only on full
success mark the document `processed = true`. -/
def processDocument (documentId : Nat) (table : List ChunkRow) (extractedText : List Char)
    (sections : List SectionRec) (fails : Nat → Bool) : ServeResult :=
  if extractedText.length < 50 then
    { table := table, documentUpdate := none, response := .error extractionErrMsg }
  else
    match runPut documentId table (buildAllChunks documentId sections extractedText) fails with
    | (tbl, true) =>
        { table := tbl, documentUpdate := some true,
          response := .ok (buildAllChunks documentId sections extractedText).length }
    | (tbl, false) =>
        { table := tbl, documentUpdate := none, response := .error insertErrMsg }

/-- A row of the chat function's chunk query: the selected `iso_chunks`
columns plus the joined `iso_documents.filename` (`none` when the join is
missing; `section`/`subsection`/`page_number` are nullable columns). -/
structure DBChunk where
  id : Nat
  content : List Char
  «section» : Option (List Char)
  subsection : Option (List Char)
  page_number : Option Nat
  chunk_index : Nat
  doc_filename : Option (List Char)
deriving DecidableEq

/-- `String.prototype.toLowerCase`, per character. -/
def toLowerL (l : List Char) : List Char := l.map Char.toLower

/-- Worker for `splitWs`, a single-pass scanner equivalent to JavaScript
`split(/\s+/)` (which yields an empty piece before a leading whitespace run
and after a trailing one): `sep = true` while consuming a whitespace run. -/
def splitWsGo (sep : Bool) (acc : List Char) : List Char → List (List Char)
  | [] => [acc.reverse]
  | c :: rest =>
    match sep with
    | false =>
      if isWs c then acc.reverse :: splitWsGo true [] rest
      else splitWsGo false (c :: acc) rest
    | true =>
      if isWs c then splitWsGo true acc rest
      else splitWsGo false (c :: acc) rest

/-- `question.split(/\s+/)`. -/
def splitWs (l : List Char) : List (List Char) := splitWsGo false [] l

/-- The full-text search terms: lowercase the question, split on whitespace,
keep terms longer than 2 characters. -/
def searchTerms (question : List Char) : List (List Char) :=
  (splitWs (toLowerL question)).filter (fun t => 2 < t.length)

/-- `.join(" & ")`: the websearch query string handed to `textSearch`. -/
def joinAmp (ts : List (List Char)) : List Char :=
  List.intercalate (' ' :: '&' :: [' ']) ts

/-- Contiguous-substring test (the semantics of an ILIKE `%k%` pattern once
both sides are lowercased). -/
def isSub (p : List Char) : List Char → Bool
  | [] => p.isEmpty
  | c :: rest => p.isPrefixOf (c :: rest) || isSub p rest

/-- The `textSearch("content", …, websearch, french).limit(5)` query.
Postgres full-text semantics are external, abstracted as the match
predicate `ftsMatch query content`; rows come back in storage order. -/
def ftsResults (ftsMatch : List Char → List Char → Bool) (table : List DBChunk)
    (question : List Char) : List DBChunk :=
  (table.filter (fun ch => ftsMatch (joinAmp (searchTerms question)) ch.content)).take 5

/-- The ILIKE fallback's keywords: split the raw question on whitespace, keep
words longer than 3 characters, take the first 3 (`slice(0, 3)`). -/
def ilikeKeywords (question : List Char) : List (List Char) :=
  ((splitWs question).filter (fun w => 3 < w.length)).take 3

/-- The `.or(keywords.map(k => content.ilike.%k%)).limit(5)` fallback query:
rows whose content contains any keyword, case-insensitively, in storage
order, capped at 5. -/
def ilikeResults (table : List DBChunk) (question : List Char) : List DBChunk :=
  (table.filter
    (fun ch => (ilikeKeywords question).any
      (fun k => isSub (toLowerL k) (toLowerL ch.content)))).take 5

/-- The chat function's chunk retrieval (part_000, lines 62–115): run the
full-text query; if it errors (`searchError`) or returns no rows, fall back
to the ILIKE query (only when at least one keyword survives filtering),
else return no chunks. -/
def retrieveChunks (ftsMatch : List Char → List Char → Bool) (searchError : Bool)
    (table : List DBChunk) (question : List Char) : List DBChunk :=
  if searchError = false ∧ 0 < (ftsResults ftsMatch table question).length then
    ftsResults ftsMatch table question
  else if 0 < (ilikeKeywords question).length then
    ilikeResults table question
  else []

/-- The retrieval tiers of the specification. -/
inductive Tier
  | vector
  | fulltext
  | substring
deriving DecidableEq

/-- The sequence of search tiers the chat function's retrieval actually
attempts, in order, for a given query and table state. -/
def tiersAttempted (ftsMatch : List Char → List Char → Bool) (searchError : Bool)
    (table : List DBChunk) (question : List Char) : List Tier :=
  if searchError = false ∧ 0 < (ftsResults ftsMatch table question).length then
    [Tier.fulltext]
  else if 0 < (ilikeKeywords question).length then
    [Tier.fulltext, Tier.substring]
  else [Tier.fulltext]

/-- JavaScript `x || d` for a nullable string: the default replaces both
`null` and the empty string (falsy). -/
def orDefault (x : Option (List Char)) (d : List Char) : List Char :=
  match x with
  | none => d
  | some s => if s = [] then d else s

/-- Decimal rendering of a natural number. -/
def natStr (n : Nat) : List Char := (Nat.repr n).data

/-- The context header line `"Contexte ISO pertinent:\n\n"`. -/
def contextHeader : List Char := "Contexte ISO pertinent:\n\n".data

/-- The provenance tag line prepended to each chunk's content:
`[Source i+1] Document: …, Section: …, Sous-section: …`. -/
def provLine (i : Nat) (ch : DBChunk) : List Char :=
  "[Source ".data ++ natStr (i + 1) ++ "] Document: ".data ++
    orDefault ch.doc_filename "Unknown".data ++
    ", Section: ".data ++ orDefault ch.«section» "N/A".data ++
    ", Sous-section: ".data ++ orDefault ch.subsection "N/A".data ++ ['\n']

/-- One chunk's contribution to the context: tag line, content, blank line. -/
def chunkBlock (i : Nat) (ch : DBChunk) : List Char :=
  provLine i ch ++ ch.content ++ ('\n' :: ['\n'])

/-- The `relevantChunks.forEach((chunk, index) => …)` loop body building the
context, with the index threaded through. -/
def contextBody : Nat → List DBChunk → List Char
  | _, [] => []
  | i, ch :: rest => chunkBlock i ch ++ contextBody (i + 1) rest

/-- The assembled context (part_000, lines 117–136): header plus one block
per retrieved chunk, in rank order; empty when no chunks were retrieved. -/
def buildContext (relevantChunks : List DBChunk) : List Char :=
  if 0 < relevantChunks.length then contextHeader ++ contextBody 0 relevantChunks
  else []

/-- A citation entry of the `sources` list. -/
structure Source where
  document : List Char
  «section» : List Char
  subsection : List Char
  chunk_id : Nat
  page : Option Nat
deriving DecidableEq

/-- The `sources.push({…})` projection of one retrieved chunk. -/
def mkSource (ch : DBChunk) : Source :=
  { document := orDefault ch.doc_filename "Document inconnu".data,
    «section» := orDefault ch.«section» "N/A".data,
    subsection := orDefault ch.subsection "N/A".data,
    chunk_id := ch.chunk_index,
    page := ch.page_number }

/-- The `sources` list built alongside the context, one entry per retrieved
chunk in the same order. -/
def buildSources (relevantChunks : List DBChunk) : List Source :=
  relevantChunks.map mkSource

/-- Opening of the system prompt, up to and including strict rule 1
(answer only from the provided context). -/
def promptIntro : List Char :=
  "Tu es un assistant expert en conformité ISO, spécialisé dans la norme ISO 9001:2015 et autres normes de management de la qualité.\n\nRÈGLES STRICTES:\n1. Tu DOIS répondre UNIQUEMENT en utilisant les informations fournies dans le contexte ISO ci-dessous.\n".data

/-- Strict rule 2 of the system prompt: if the information is not in the
context, answer that it was not found in the available ISO standard. -/
def ruleNotFound : List Char :=
  "2. Si l\x27information n\x27est PAS dans le contexte, réponds: \"Information non trouvée dans la norme ISO disponible.\"\n".data

/-- Strict rules 3–5 of the system prompt, ending with the blank line before
the interpolated context. -/
def promptTail : List Char :=
  "3. Chaque réponse DOIT être précise et citer les sources.\n4. Réponds en français.\n5. Sois concis mais complet.\n\n".data

/-- The message interpolated when the context string is empty: no ISO
document was found, tell the user to load documents first. -/
def noDocsMsg : List Char :=
  "AUCUN DOCUMENT ISO N\x27A ÉTÉ TROUVÉ DANS LA BASE DE DONNÉES. Informe l\x27utilisateur qu\x27il doit d\x27abord charger des documents ISO.".data

/-- The system prompt (part_000, lines 139–148): the fixed rules followed by
`${context || "AUCUN DOCUMENT …"}` — the context if it is nonempty, the
no-documents message otherwise. -/
def systemPrompt (context : List Char) : List Char :=
  promptIntro ++ ruleNotFound ++ promptTail ++
    (if context = [] then noDocsMsg else context)

/-! ### Helper lemmas -/

theorem dropWhile_head_false {p : Char → Bool} :
    ∀ (l : List Char) {a : Char} {t : List Char}, l.dropWhile p = a :: t → p a = false := by
  intro l
  induction l with
  | nil => intro a t h; simp [List.dropWhile] at h
  | cons x xs ih =>
      intro a t h
      rw [List.dropWhile_cons] at h
      split at h
      · exact ih h
      · cases h
        simpa using Bool.of_not_eq_true ‹¬ p x = true›

theorem trim_length_le (l : List Char) : (trim l).length ≤ l.length := by
  have h1 : List.Sublist ((l.dropWhile isWs).reverse.dropWhile isWs) (l.dropWhile isWs).reverse :=
    List.dropWhile_sublist isWs
  have h2 : List.Sublist (l.dropWhile isWs) l := List.dropWhile_sublist isWs
  have g1 := h1.length_le
  have g2 := h2.length_le
  simp only [trim, List.length_reverse] at *
  omega

theorem mem_of_mem_trim {c : Char} {l : List Char} (h : c ∈ trim l) : c ∈ l := by
  simp only [trim, List.mem_reverse] at h
  have h1 : c ∈ (l.dropWhile isWs).reverse := (List.dropWhile_sublist isWs).subset h
  rw [List.mem_reverse] at h1
  exact (List.dropWhile_sublist isWs).subset h1

theorem ws_of_trim_eq_nil {l : List Char} (h : trim l = []) : ∀ c ∈ l, isWs c = true := by
  intro c hc
  simp only [trim, List.reverse_eq_nil_iff, List.dropWhile_eq_nil_iff,
    List.mem_reverse] at h
  rw [← List.takeWhile_append_dropWhile (p := isWs) (l := l)] at hc
  rcases List.mem_append.1 hc with h1 | h1
  · exact List.mem_takeWhile_imp h1
  · exact h _ h1

theorem trim_ne_nil_of_nonws {l : List Char} {c : Char} (hc : c ∈ l) (hw : isWs c = false) :
    trim l ≠ [] := by
  intro h
  have := ws_of_trim_eq_nil h c hc
  rw [hw] at this
  exact Bool.false_ne_true this

theorem exists_nonws_mem_trim {l : List Char} (h : trim l ≠ []) :
    ∃ c ∈ trim l, isWs c = false := by
  rcases hr : (l.dropWhile isWs).reverse.dropWhile isWs with _ | ⟨a, t⟩
  · exact absurd (by simp [trim, hr]) h
  · exact ⟨a, by simp [trim, hr], dropWhile_head_false _ hr⟩

theorem nonws_of_punct {c : Char} (h : isPunct c = true) : isWs c = false := by
  have : (c = '.' ∨ c = '!') ∨ c = '?' := by simpa [isPunct] using h
  rcases this with (rfl | rfl) | rfl <;> decide

/-- Every piece produced by the sentence splitter is empty or contains a
non-whitespace character, provided the scanner state promises one (initial
call: the text contains a non-whitespace character). -/
theorem splitSentencesGo_ok :
    ∀ (l : List Char) (sep : Bool) (acc : List Char),
      ((∃ c ∈ acc, isWs c = false) ∨ (∃ c ∈ l, isWs c = false) ∨
        (acc = [] ∧ (sep = true ∨ l = []))) →
      ∀ p ∈ splitSentencesGo sep acc l, p = [] ∨ ∃ c ∈ p, isWs c = false := by
  intro l
  induction l with
  | nil =>
      intro sep acc hinv p hp
      simp only [splitSentencesGo, List.mem_singleton] at hp
      subst hp
      rcases hinv with ⟨c, hc, hw⟩ | h | ⟨rfl, _⟩
      · exact Or.inr ⟨c, by simpa using hc, hw⟩
      · simp at h
      · simp
  | cons c rest ih =>
      intro sep acc hinv p hp
      cases sep with
      | false =>
          simp only [splitSentencesGo] at hp
          by_cases hcond : (isPunct c && wsAhead rest) = true
          · rw [if_pos hcond] at hp
            rw [Bool.and_eq_true] at hcond
            have hpc : isPunct c = true := hcond.1
            rcases List.mem_cons.1 hp with rfl | hp'
            · exact Or.inr ⟨c, by simp, nonws_of_punct hpc⟩
            · exact ih true [] (Or.inr (Or.inr ⟨rfl, Or.inl rfl⟩)) p hp'
          · rw [if_neg hcond] at hp
            refine ih false (c :: acc) ?_ p hp
            rcases hinv with ⟨x, hx, hw⟩ | ⟨x, hx, hw⟩ | ⟨rfl, hbad⟩
            · exact Or.inl ⟨x, by simp [hx], hw⟩
            · rcases List.mem_cons.1 hx with rfl | hx'
              · exact Or.inl ⟨x, by simp, hw⟩
              · exact Or.inr (Or.inl ⟨x, hx', hw⟩)
            · rcases hbad with hbad | hbad
              · exact absurd hbad (by simp)
              · exact absurd hbad (by simp)
      | true =>
          simp only [splitSentencesGo] at hp
          by_cases hcond : isWs c = true
          · rw [if_pos hcond] at hp
            refine ih true acc ?_ p hp
            rcases hinv with h | ⟨x, hx, hw⟩ | ⟨rfl, _⟩
            · exact Or.inl h
            · rcases List.mem_cons.1 hx with rfl | hx'
              · rw [hcond] at hw; exact absurd hw (by simp)
              · exact Or.inr (Or.inl ⟨x, hx', hw⟩)
            · exact Or.inr (Or.inr ⟨rfl, Or.inl rfl⟩)
          · rw [if_neg hcond] at hp
            exact ih false (c :: acc)
              (Or.inl ⟨c, by simp, Bool.of_not_eq_true hcond⟩) p hp

/-- Every chunk emitted by the greedy packer is nonempty and contains a
non-whitespace character, provided the current chunk and every remaining
sentence are empty-or-contain-one. -/
theorem chunkTextGo_ok (max : Nat) :
    ∀ (ss : List (List Char)) (cur : List Char),
      (cur = [] ∨ ∃ c ∈ cur, isWs c = false) →
      (∀ s ∈ ss, s = [] ∨ ∃ c ∈ s, isWs c = false) →
      ∀ ch ∈ chunkTextGo max cur ss, ch ≠ [] ∧ ∃ c ∈ ch, isWs c = false := by
  intro ss
  induction ss with
  | nil =>
      intro cur _ _ ch hch
      simp only [chunkTextGo] at hch
      split at hch
      · simp only [List.mem_singleton] at hch
        subst hch
        exact ⟨‹trim cur ≠ []›, exists_nonws_mem_trim ‹trim cur ≠ []›⟩
      · simp at hch
  | cons s rest ih =>
      intro cur hcur hss ch hch
      simp only [chunkTextGo] at hch
      split at hch
      · next hcond =>
          rcases List.mem_cons.1 hch with rfl | hch'
          · rcases hcur with rfl | ⟨c, hc, hw⟩
            · exact absurd rfl hcond.2
            · have hne := trim_ne_nil_of_nonws hc hw
              exact ⟨hne, exists_nonws_mem_trim hne⟩
          · exact ih s (hss s (by simp)) (fun t ht => hss t (by simp [ht])) ch hch'
      · refine ih _ ?_ (fun t ht => hss t (by simp [ht])) ch hch
        rcases hcur with rfl | ⟨c, hc, hw⟩
        · simpa using hss s (by simp)
        · exact Or.inr ⟨c, by simp [hc], hw⟩

theorem rowsFor_content (documentId : Nat) (sec : SectionRec) :
    ∀ (cs : List (List Char)) (i : Nat) (row : ChunkRow),
      row ∈ rowsFor documentId sec i cs → row.content ∈ cs := by
  intro cs
  induction cs with
  | nil => intro i row h; simp [rowsFor] at h
  | cons c rest ih =>
      intro i row h
      rcases List.mem_cons.1 h with rfl | h'
      · simp
      · exact List.mem_cons.2 (Or.inr (ih (i + 1) row h'))

theorem rowsSections_content (documentId : Nat) :
    ∀ (sections : List SectionRec) (i : Nat) (row : ChunkRow),
      row ∈ rowsSections documentId i sections →
      ∃ sec ∈ sections, row.content ∈ chunkText sec.content 1500 := by
  intro sections
  induction sections with
  | nil => intro i row h; simp [rowsSections] at h
  | cons sec rest ih =>
      intro i row h
      rcases List.mem_append.1 h with h' | h'
      · exact ⟨sec, by simp, rowsFor_content documentId sec _ i row h'⟩
      · rcases ih _ row h' with ⟨sec', hmem, hc⟩
        exact ⟨sec', by simp [hmem], hc⟩

theorem rowsFallback_content (documentId : Nat) :
    ∀ (cs : List (List Char)) (i page : Nat) (row : ChunkRow),
      row ∈ rowsFallback documentId i page cs → row.content ∈ cs := by
  intro cs
  induction cs with
  | nil => intro i page row h; simp [rowsFallback] at h
  | cons c rest ih =>
      intro i page row h
      rcases List.mem_cons.1 h with rfl | h'
      · simp
      · exact List.mem_cons.2 (Or.inr (ih (i + 1) (page + 1) row h'))

/-- Claim C10: for every input text that is non-empty after trimming, every
string returned by `chunkText` is non-empty and contains a non-whitespace
character; consequently every chunk row built by the ingestion function has
non-empty content (the hypothesis on the sections holds for
`extractSections` output, whose `content` fields are trimmed and checked
nonempty before being pushed), so an empty-content validation failure can
never arise from this segmenter. -/
theorem chunkText_chunks_nonempty :
    (∀ (text : List Char) (max : Nat), trim text ≠ [] →
       ∀ ch ∈ chunkText text max, ch ≠ [] ∧ ∃ c ∈ ch, isWs c = false) ∧
    (∀ (documentId : Nat) (sections : List SectionRec) (extractedText : List Char),
       (∀ sec ∈ sections, trim sec.content ≠ []) → trim extractedText ≠ [] →
       ∀ row ∈ buildAllChunks documentId sections extractedText, row.content ≠ []) := by
  have core : ∀ (text : List Char) (max : Nat), trim text ≠ [] →
      ∀ ch ∈ chunkText text max, ch ≠ [] ∧ ∃ c ∈ ch, isWs c = false := by
    intro text max htext ch hch
    rcases exists_nonws_mem_trim htext with ⟨c, hc, hw⟩
    have hpieces := splitSentencesGo_ok text false []
      (Or.inr (Or.inl ⟨c, mem_of_mem_trim hc, hw⟩))
    exact chunkTextGo_ok max (splitSentences text) [] (Or.inl rfl) hpieces ch hch
  refine ⟨core, ?_⟩
  intro documentId sections extractedText hsec htext row hrow
  rw [buildAllChunks] at hrow
  split at hrow
  · rcases rowsSections_content documentId sections 0 row hrow with ⟨sec, hmem, hc⟩
    exact (core sec.content 1500 (hsec sec hmem) row.content hc).1
  · exact (core extractedText 1500 htext row.content
      (rowsFallback_content documentId _ 0 1 row hrow)).1

/-- Claim C10, witness: a concrete text whose single chunk is nonempty, and
a concrete fallback ingestion whose single row has nonempty content. -/
theorem chunkText_chunks_nonempty_witness :
    ("Hello. World.".data ≠ [] ∧ ∃ c ∈ "Hello. World.".data, isWs c = false) ∧
    (⟨7, 0, "Hello. World.".data, ['1'], [], 1⟩ : ChunkRow).content ≠ [] := by
  constructor
  · exact chunkText_chunks_nonempty.1 "Hello. World.".data 1500 (by decide)
      "Hello. World.".data (by decide)
  · exact chunkText_chunks_nonempty.2 7 [] "Hello. World.".data (by simp) (by decide)
      ⟨7, 0, "Hello. World.".data, ['1'], [], 1⟩ (by decide)

theorem rowsFor_map_index (documentId : Nat) (sec : SectionRec) :
    ∀ (cs : List (List Char)) (i : Nat),
      (rowsFor documentId sec i cs).map ChunkRow.chunk_index = List.range' i cs.length := by
  intro cs
  induction cs with
  | nil => intro i; simp [rowsFor]
  | cons c rest ih => intro i; simp [rowsFor, List.range'_succ, ih]

theorem rowsFor_length (documentId : Nat) (sec : SectionRec)
    (cs : List (List Char)) (i : Nat) : (rowsFor documentId sec i cs).length = cs.length := by
  have := congrArg List.length (rowsFor_map_index documentId sec cs i)
  simpa using this

theorem rowsSections_map_index (documentId : Nat) :
    ∀ (sections : List SectionRec) (i : Nat),
      (rowsSections documentId i sections).map ChunkRow.chunk_index =
        List.range' i (rowsSections documentId i sections).length := by
  intro sections
  induction sections with
  | nil => intro i; simp [rowsSections]
  | cons sec rest ih =>
      intro i
      simp only [rowsSections, List.map_append, List.length_append,
        rowsFor_map_index, rowsFor_length, ih]
      rw [List.range'_append_1]
      rw [Nat.add_comm ((rowsSections documentId
        (i + (chunkText sec.content 1500).length) rest).length)]

theorem rowsFallback_map_index (documentId : Nat) :
    ∀ (cs : List (List Char)) (i page : Nat),
      (rowsFallback documentId i page cs).map ChunkRow.chunk_index = List.range' i cs.length := by
  intro cs
  induction cs with
  | nil => intro i page; simp [rowsFallback]
  | cons c rest ih => intro i page; simp [rowsFallback, List.range'_succ, ih]

theorem rowsFallback_length (documentId : Nat) (cs : List (List Char)) (i page : Nat) :
    (rowsFallback documentId i page cs).length = cs.length := by
  have := congrArg List.length (rowsFallback_map_index documentId cs i page)
  simpa using this

/-- Claim C5: for every document ingested into N chunks, the `chunk_index`
ordinals assigned over the whole document, spanning all sections (and
likewise in the fallback branch), are exactly `0, 1, …, N-1` in this order:
no gaps, no duplicates. -/
theorem chunk_index_dense (documentId : Nat) (sections : List SectionRec)
    (extractedText : List Char) :
    (buildAllChunks documentId sections extractedText).map ChunkRow.chunk_index =
      List.range (buildAllChunks documentId sections extractedText).length := by
  rw [buildAllChunks]
  split
  · rw [rowsSections_map_index, List.range_eq_range']
  · rw [rowsFallback_map_index, List.range_eq_range', rowsFallback_length]

theorem chunkTextGo_size (max : Nat) (S : List (List Char)) :
    ∀ (ss : List (List Char)) (cur : List Char),
      (cur = [] ∨ cur.length ≤ max + 1 ∨ ∃ s ∈ S, cur = s) →
      (∀ s ∈ ss, s ∈ S) →
      ∀ ch ∈ chunkTextGo max cur ss, ch.length ≤ max + 1 ∨ ∃ s ∈ S, ch = trim s := by
  intro ss
  induction ss with
  | nil =>
      intro cur hcur _ ch hch
      simp only [chunkTextGo] at hch
      split at hch
      · simp only [List.mem_singleton] at hch
        subst hch
        rcases hcur with rfl | hle | ⟨s, hs, heq⟩
        · left; simp [trim]
        · left; exact le_trans (trim_length_le cur) hle
        · right; exact ⟨s, hs, by rw [heq]⟩
      · simp at hch
  | cons s rest ih =>
      intro cur hcur hss ch hch
      simp only [chunkTextGo] at hch
      split at hch
      · next hcond =>
          rcases List.mem_cons.1 hch with rfl | hch'
          · rcases hcur with rfl | hle | ⟨s', hs', heq⟩
            · exact absurd rfl hcond.2
            · left; exact le_trans (trim_length_le cur) hle
            · right; exact ⟨s', hs', by rw [heq]⟩
          · exact ih s (Or.inr (Or.inr ⟨s, hss s (by simp), rfl⟩))
              (fun t ht => hss t (by simp [ht])) ch hch'
      · next hcond =>
          refine ih _ ?_ (fun t ht => hss t (by simp [ht])) ch hch
          by_cases hc : cur = []
          · subst hc
            exact Or.inr (Or.inr ⟨s, hss s (by simp), by simp⟩)
          · have hlen : cur.length + s.length ≤ max := by
              by_contra hgt
              exact hcond ⟨Nat.lt_of_not_le hgt, hc⟩
            have hnew : (cur ++ (if cur = [] then [] else [' ']) ++ s).length =
                cur.length + 1 + s.length := by
              simp [hc]
              omega
            exact Or.inr (Or.inl (by rw [hnew]; omega))

/-- Claim C6 as stated (with the lower bound read as vacuous, its weakest
reading): every chunk except the last has length at most `max`, unless it is
a single sentence that alone exceeds `max`. -/
def chunkSizeClaim : Prop :=
  ∀ (text : List Char) (max i : Nat), i + 1 < (chunkText text max).length →
    ((chunkText text max).getD i []).length ≤ max ∨
    ∃ s ∈ splitSentences text,
      (chunkText text max).getD i [] = trim s ∧ max < s.length

/-- Claim C6, counterexample: with `maxChunkSize = 10` the text
`"abcd. efgh. ij."` yields the non-last chunk `"abcd. efgh."` of length 11 —
two sentences exceeding the bound, because the size check
`currentChunk.length + sentence.length > maxChunkSize` does not count the
joining space. -/
theorem chunk_size_counterexample : ¬ chunkSizeClaim := by
  intro h
  exact absurd (h "abcd. efgh. ij.".data 10 0 (by decide)) (by decide)

/-- Claim C6 (amended): every chunk produced by `chunkText` either has
length at most `maxChunkSize + 1` (the single joining space is not counted
by the size check, allowing a one-character overshoot), or is the trim of a
single input sentence kept whole (the oversized-sentence case); the code
imposes no lower bound on chunk length. -/
theorem chunk_size_characterization :
    ∀ (text : List Char) (max : Nat), ∀ ch ∈ chunkText text max,
      ch.length ≤ max + 1 ∨ ∃ s ∈ splitSentences text, ch = trim s := by
  intro text max ch hch
  exact chunkTextGo_size max (splitSentences text) (splitSentences text) []
    (Or.inl rfl) (fun s hs => hs) ch hch

/-- Claim C6, witness for the amended theorem at the oversized chunk of the
counterexample input. -/
theorem chunk_size_characterization_witness :
    "abcd. efgh.".data.length ≤ 10 + 1 ∨
      ∃ s ∈ splitSentences "abcd. efgh. ij.".data, "abcd. efgh.".data = trim s :=
  chunk_size_characterization "abcd. efgh. ij.".data 10 "abcd. efgh.".data (by decide)

/-- Total character count of a list of strings. -/
def sumLen (ls : List (List Char)) : Nat := (ls.map List.length).sum

theorem splitSentencesGo_sumLen :
    ∀ (l : List Char) (sep : Bool) (acc : List Char),
      sumLen (splitSentencesGo sep acc l) + (splitSentencesGo sep acc l).length ≤
        acc.length + l.length + (if sep = true ∧ wsAhead l = true then 0 else 1) := by
  intro l
  induction l with
  | nil =>
      intro sep acc
      simp [splitSentencesGo, sumLen, wsAhead]
  | cons c rest ih =>
      intro sep acc
      cases sep with
      | false =>
          simp only [splitSentencesGo]
          by_cases hcond : (isPunct c && wsAhead rest) = true
          · rw [if_pos hcond, Bool.and_eq_true] at *
            have h2 := ih true []
            rw [if_pos ⟨rfl, hcond.2⟩] at h2
            have hgoal : (if (false = true ∧ wsAhead (c :: rest) = true) then 0 else 1) = 1 := by
              simp
            rw [hgoal]
            simp only [sumLen, List.map_cons, List.sum_cons, List.length_cons,
              List.length_reverse, List.length_nil] at *
            omega
          · rw [if_neg hcond]
            have h2 := ih false (c :: acc)
            have hif : (if (false = true ∧ wsAhead rest = true) then 0 else 1) = 1 := by simp
            rw [hif] at h2
            have hgoal : (if (false = true ∧ wsAhead (c :: rest) = true) then 0 else 1) = 1 := by
              simp
            rw [hgoal]
            simp only [List.length_cons] at *
            omega
      | true =>
          simp only [splitSentencesGo]
          by_cases hcond : isWs c = true
          · rw [if_pos hcond]
            have hgoal : (if (True ∧ wsAhead (c :: rest) = true) then 0 else 1) = 0 := by
              simp [wsAhead, hcond]
            rw [hgoal]
            have h2 := ih true acc
            have hb : (if (true = true ∧ wsAhead rest = true) then 0 else 1) ≤ 1 := by
              split <;> omega
            simp only [List.length_cons]
            omega
          · rw [if_neg hcond]
            have hgoal : (if (True ∧ wsAhead (c :: rest) = true) then 0 else 1) = 1 := by
              simp [wsAhead, hcond]
            rw [hgoal]
            have h2 := ih false (c :: acc)
            have hif : (if (false = true ∧ wsAhead rest = true) then 0 else 1) = 1 := by simp
            rw [hif] at h2
            simp only [List.length_cons] at *
            omega

theorem chunkTextGo_sumLen (max : Nat) :
    ∀ (ss : List (List Char)) (cur : List Char),
      sumLen (chunkTextGo max cur ss) ≤ cur.length + sumLen ss + ss.length := by
  intro ss
  induction ss with
  | nil =>
      intro cur
      simp only [chunkTextGo]
      split
      · have := trim_length_le cur
        simp only [sumLen, List.map_cons, List.sum_cons, List.map_nil, List.sum_nil,
          List.length_nil]
        omega
      · simp [sumLen]
  | cons s rest ih =>
      intro cur
      simp only [chunkTextGo]
      split
      · have h1 := ih s
        have h2 := trim_length_le cur
        simp only [sumLen, List.map_cons, List.sum_cons, List.length_cons] at *
        omega
      · have h1 := ih (cur ++ (if cur = [] then [] else [' ']) ++ s)
        have h2 : (cur ++ (if cur = [] then [] else [' ']) ++ s).length ≤
            cur.length + 1 + s.length := by
          simp only [List.length_append]
          split <;> simp
        simp only [sumLen, List.map_cons, List.sum_cons, List.length_cons] at *
        omega

/-- Claim C3 as stated: every chunk after the first begins with some
nonempty trailing portion (the overlap) of the previously closed chunk. -/
def overlapClaim : Prop :=
  ∀ (text : List Char) (max i : Nat), i + 1 < (chunkText text max).length →
    ∃ k ∈ List.range (((chunkText text max).getD i []).length + 1),
      0 < k ∧
      ((chunkText text max).getD (i + 1) []).take k =
        ((chunkText text max).getD i []).drop (((chunkText text max).getD i []).length - k)

/-- Claim C3, counterexample: `chunkText "aaa. bbb."` with `maxChunkSize = 4`
produces the chunks `"aaa."` and `"bbb."`; the second chunk shares no
trailing portion of the first — no overlap is carried across the boundary. -/
theorem overlap_counterexample : ¬ overlapClaim := by
  intro h
  exact absurd (h "aaa. bbb.".data 4 0 (by decide)) (by decide)

/-- Claim C3 (amended): when the greedy packer closes a chunk it starts the
next one from the very next sentence alone (`currentChunk = sentence`), not
from any trailing sentences of the closed chunk; globally the total length
of all chunks never exceeds the input length plus one, so no
`overlap_tokens` worth of text is duplicated across chunk boundaries. -/
theorem chunk_boundary_no_overlap :
    (∀ (max : Nat) (cur s : List Char) (rest : List (List Char)),
       max < cur.length + s.length → cur ≠ [] →
       chunkTextGo max cur (s :: rest) = trim cur :: chunkTextGo max s rest) ∧
    (∀ (text : List Char) (max : Nat), sumLen (chunkText text max) ≤ text.length + 1) := by
  constructor
  · intro max cur s rest h1 h2
    simp only [chunkTextGo]
    rw [if_pos ⟨h1, h2⟩]
  · intro text max
    have h1 := chunkTextGo_sumLen max (splitSentences text) []
    have h2 := splitSentencesGo_sumLen text false []
    have hif : (if (false = true ∧ wsAhead text = true) then 0 else 1) = 1 := by simp
    rw [hif] at h2
    simp only [chunkText, splitSentences, List.length_nil] at *
    omega

/-- Claim C3, witness for the amended theorem on the counterexample input. -/
theorem chunk_boundary_no_overlap_witness :
    chunkTextGo 4 "aaa.".data ["bbb.".data] = ["aaa.".data, "bbb.".data] ∧
    sumLen (chunkText "aaa. bbb.".data 4) ≤ "aaa. bbb.".data.length + 1 := by
  constructor
  · rw [chunk_boundary_no_overlap.1 4 "aaa.".data "bbb.".data [] (by decide) (by decide)]
    decide
  · exact chunk_boundary_no_overlap.2 "aaa. bbb.".data 4

theorem toBatches_nil : toBatches ([] : List ChunkRow) = [] := by
  rw [toBatches.eq_def]

theorem toBatches_cons (x : ChunkRow) (xs : List ChunkRow) :
    toBatches (x :: xs) = (x :: xs).take batchSize :: toBatches ((x :: xs).drop batchSize) := by
  rw [toBatches.eq_def]

theorem take_add' {α : Type} (m n : Nat) :
    ∀ l : List α, l.take (m + n) = l.take m ++ (l.drop m).take n := by
  induction m with
  | zero => intro l; simp
  | succ m ih =>
      intro l
      cases l with
      | nil => simp
      | cons c t =>
          rw [show m + 1 + n = (m + n) + 1 by omega]
          simp [List.take_succ_cons, List.drop_succ_cons, ih]

theorem toBatches_flatten : ∀ l : List ChunkRow, (toBatches l).flatten = l := by
  intro l
  induction l using toBatches.induct with
  | case1 => simp [toBatches_nil]
  | case2 x xs ih =>
      rw [toBatches_cons]
      simp only [List.flatten_cons]
      rw [ih, List.take_append_drop]

theorem toBatches_take_flatten : ∀ (l : List ChunkRow) (j : Nat),
    ((toBatches l).take j).flatten = l.take (batchSize * j) := by
  intro l
  induction l using toBatches.induct with
  | case1 => intro j; simp [toBatches_nil]
  | case2 x xs ih =>
      intro j
      cases j with
      | zero => simp
      | succ j' =>
          rw [toBatches_cons]
          simp only [List.take_succ_cons, List.flatten_cons]
          rw [ih j', ← take_add']
          rw [Nat.mul_succ, Nat.add_comm (batchSize * j') batchSize]

theorem insertBatches_success (fails : Nat → Bool) :
    ∀ (bs : List (List ChunkRow)) (state : List ChunkRow) (i : Nat),
      (∀ k, k < bs.length → fails (i + k) = false) →
      insertBatches fails state i bs = (state ++ bs.flatten, true) := by
  intro bs
  induction bs with
  | nil => intro state i _; simp [insertBatches]
  | cons b rest ih =>
      intro state i hk
      have h0 : fails i = false := by simpa using hk 0 (by simp)
      rw [insertBatches, if_neg (by simp [h0])]
      rw [ih (state ++ b) (i + 1)
        (fun k hk' => by
          rw [show i + 1 + k = i + (k + 1) by omega]
          exact hk (k + 1) (by simpa using Nat.succ_lt_succ hk'))]
      simp [List.flatten]

theorem insertBatches_failure (fails : Nat → Bool) :
    ∀ (bs : List (List ChunkRow)) (state : List ChunkRow) (i j : Nat),
      j < bs.length → (∀ k, k < j → fails (i + k) = false) → fails (i + j) = true →
      insertBatches fails state i bs = (state ++ (bs.take j).flatten, false) := by
  intro bs
  induction bs with
  | nil => intro state i j hj _ _; simp at hj
  | cons b rest ih =>
      intro state i j hj hpre hfail
      cases j with
      | zero =>
          rw [insertBatches, if_pos (by simpa using hfail)]
          simp
      | succ j' =>
          have h0 : fails i = false := by simpa using hpre 0 (by omega)
          rw [insertBatches, if_neg (by simp [h0])]
          rw [ih (state ++ b) (i + 1) j' (by simpa using Nat.lt_of_succ_lt_succ hj)
            (fun k hk => by
              rw [show i + 1 + k = i + (k + 1) by omega]
              exact hpre (k + 1) (by omega))
            (by rw [show i + 1 + j' = i + (j' + 1) by omega]; exact hfail)]
          simp [List.flatten, List.take_succ_cons]

/-- Claim C1 as stated: if `put` fails, the document's visible chunk rows
are either the complete old generation or the complete new generation. -/
def putAtomicClaim : Prop :=
  ∀ (documentId : Nat) (table newChunks : List ChunkRow) (fails : Nat → Bool),
    (runPut documentId table newChunks fails).2 = false →
    docRows documentId (runPut documentId table newChunks fails).1 =
      docRows documentId table ∨
    docRows documentId (runPut documentId table newChunks fails).1 = newChunks

/-- Claim C1, counterexample: one old chunk, one new chunk, and the single
insert batch fails.  The delete has already removed the old generation, so
the visible state is the empty chunk set — neither the complete old nor the
complete new generation. -/
theorem put_atomicity_counterexample : ¬ putAtomicClaim := by
  intro h
  have hb : toBatches [⟨0, 0, ['b'], [], [], 1⟩] = [[⟨0, 0, ['b'], [], [], 1⟩]] := by
    rw [toBatches_cons]
    simp [batchSize, toBatches_nil]
  have hrun : runPut 0 [⟨0, 0, ['a'], [], [], 1⟩] [⟨0, 0, ['b'], [], [], 1⟩]
      (fun _ => true) = ([], false) := by
    rw [runPut, hb]
    decide
  have hcl := h 0 [⟨0, 0, ['a'], [], [], 1⟩] [⟨0, 0, ['b'], [], [], 1⟩] (fun _ => true)
    (by rw [hrun])
  rw [hrun] at hcl
  revert hcl
  decide

/-- Claim C1 (amended): `put` deletes the document's existing chunks first
and then inserts the new chunks sequentially in batches of 50.  If every
batch insert succeeds the final state holds exactly the new generation; if
batch `j` is the first to fail, the already-inserted first `50·j` new chunks
remain visible and the old generation is gone — a partial (possibly empty)
new chunk set is observable after a failed `put`. -/
theorem put_batches_characterization :
    ∀ (documentId : Nat) (table newChunks : List ChunkRow) (fails : Nat → Bool),
      ((∀ k, k < (toBatches newChunks).length → fails k = false) →
         runPut documentId table newChunks fails =
           (table.filter (fun r => r.document_id != documentId) ++ newChunks, true)) ∧
      (∀ j, j < (toBatches newChunks).length → (∀ k, k < j → fails k = false) →
         fails j = true →
         runPut documentId table newChunks fails =
           (table.filter (fun r => r.document_id != documentId) ++
             newChunks.take (batchSize * j), false)) := by
  intro documentId table newChunks fails
  constructor
  · intro hk
    rw [runPut, insertBatches_success fails _ _ 0 (fun k hk' => by simpa using hk k hk'),
      toBatches_flatten]
  · intro j hj hpre hfail
    rw [runPut, insertBatches_failure fails _ _ 0 j hj
      (fun k hk' => by simpa using hpre k hk') (by simpa using hfail),
      toBatches_take_flatten]

/-- Claim C1, witness for the amended characterization: a one-chunk insert
that succeeds, and the same insert failing at batch 0. -/
theorem put_batches_witness :
    runPut 0 [] [⟨0, 0, ['b'], [], [], 1⟩] (fun _ => false) =
      ([⟨0, 0, ['b'], [], [], 1⟩], true) ∧
    runPut 0 [] [⟨0, 0, ['b'], [], [], 1⟩] (fun _ => true) = ([], false) := by
  have hb : toBatches [⟨0, 0, ['b'], [], [], 1⟩] = [[⟨0, 0, ['b'], [], [], 1⟩]] := by
    rw [toBatches_cons]
    simp [batchSize, toBatches_nil]
  constructor
  · have := (put_batches_characterization 0 [] [⟨0, 0, ['b'], [], [], 1⟩]
      (fun _ => false)).1 (fun k _ => rfl)
    simpa using this
  · have := (put_batches_characterization 0 [] [⟨0, 0, ['b'], [], [], 1⟩]
      (fun _ => true)).2 0 (by rw [hb]; decide) (fun k hk => by omega) rfl
    simpa using this

/-- Claim C7 as stated: on extracted text below the 50-character threshold,
ingestion fails with the extraction error, zero chunks are created, and the
document's processing status is set to failed — which requires, at minimum,
that some update of the document row occurs. -/
def extractionFailureClaim : Prop :=
  ∀ (documentId : Nat) (table : List ChunkRow) (extractedText : List Char)
    (sections : List SectionRec) (fails : Nat → Bool),
    extractedText.length < 50 →
    respIsOk (processDocument documentId table extractedText sections fails).response = false ∧
    (processDocument documentId table extractedText sections fails).table = table ∧
    (processDocument documentId table extractedText sections fails).documentUpdate ≠ none

/-- Claim C7, counterexample: for the one-character text `"x"` the handler
throws before any database statement runs — the document row is never
updated, so no failed status (which the schema does not even have: only a
`processed` boolean exists) is recorded. -/
theorem extraction_status_counterexample : ¬ extractionFailureClaim := by
  intro h
  exact (h 0 [] "x".data [] (fun _ => false) (by decide)).2.2 (by decide)

/-- Claim C7 (amended): on extracted text below the 50-character threshold,
ingestion returns the extraction error response and creates zero chunks, but
performs no update of the document row at all: the `processed` flag is left
unchanged (the schema has no failed status, so the document simply remains
unprocessed). -/
theorem extraction_failure_behavior :
    ∀ (documentId : Nat) (table : List ChunkRow) (extractedText : List Char)
      (sections : List SectionRec) (fails : Nat → Bool),
      extractedText.length < 50 →
      processDocument documentId table extractedText sections fails =
        ⟨table, none, .error extractionErrMsg⟩ := by
  intro documentId table extractedText sections fails h
  simp only [processDocument, if_pos h]

/-- Claim C7, witness at the concrete short input `"x"`. -/
theorem extraction_failure_behavior_witness :
    processDocument 0 [] "x".data [] (fun _ => false) =
      ⟨[], none, .error extractionErrMsg⟩ :=
  extraction_failure_behavior 0 [] "x".data [] (fun _ => false) (by decide)

/-- Claim C2 as stated (its vector-first part): for every query, the first
retrieval tier attempted is vector search. -/
def threeTierClaim : Prop :=
  ∀ (ftsMatch : List Char → List Char → Bool) (searchError : Bool)
    (table : List DBChunk) (question : List Char),
    (tiersAttempted ftsMatch searchError table question).head? = some Tier.vector

/-- Claim C2, counterexample: the chat function's retrieval never performs a
vector search — its first tier is always the full-text query. -/
theorem three_tier_counterexample : ¬ threeTierClaim := by
  intro h
  exact absurd (h (fun _ _ => false) false [] []) (by decide)

/-- Claim C2 (amended): retrieval degrades through two tiers — full-text
search first, then a substring (ILIKE) match over the top 3 query terms
longer than 3 characters whenever full-text errors or yields zero rows —
the result is always capped at 5, and when every tier yields nothing the
outcome is the empty, error-free chunk list, not an error. -/
theorem two_tier_retrieval :
    ∀ (ftsMatch : List Char → List Char → Bool) (searchError : Bool)
      (table : List DBChunk) (question : List Char),
      (retrieveChunks ftsMatch searchError table question).length ≤ 5 ∧
      (tiersAttempted ftsMatch searchError table question).head? = some Tier.fulltext ∧
      (searchError = false → ftsResults ftsMatch table question ≠ [] →
         retrieveChunks ftsMatch searchError table question =
           ftsResults ftsMatch table question) ∧
      ((searchError = true ∨ ftsResults ftsMatch table question = []) →
         ilikeResults table question = [] →
         retrieveChunks ftsMatch searchError table question = []) := by
  intro f e table q
  refine ⟨?_, ?_, ?_, ?_⟩
  · rw [retrieveChunks]
    split
    · simp only [ftsResults]
      exact List.length_take_le _ _
    · split
      · simp only [ilikeResults]
        exact List.length_take_le _ _
      · simp
  · rw [tiersAttempted]
    split
    · rfl
    · split <;> rfl
  · intro he hne
    rw [retrieveChunks, if_pos ⟨he, List.length_pos.2 hne⟩]
  · intro hor hil
    rw [retrieveChunks, if_neg ?_]
    · split
      · exact hil
      · rfl
    · rintro ⟨he, hlen⟩
      rcases hor with h1 | h1
      · rw [he] at h1; exact Bool.false_ne_true h1
      · rw [h1] at hlen; exact absurd hlen (by simp)

/-- Claim C2, witness for the amended theorem: a nonempty full-text result
is returned as-is, and an all-empty degradation yields the empty list. -/
theorem two_tier_retrieval_witness :
    retrieveChunks (fun _ _ => true) false [⟨0, ['x'], none, none, none, 0, none⟩] [] =
      ftsResults (fun _ _ => true) [⟨0, ['x'], none, none, none, 0, none⟩] [] ∧
    retrieveChunks (fun _ _ => false) false [] [] = [] := by
  constructor
  · exact (two_tier_retrieval (fun _ _ => true) false
      [⟨0, ['x'], none, none, none, 0, none⟩] []).2.2.1 rfl (by decide)
  · exact (two_tier_retrieval (fun _ _ => false) false [] []).2.2.2
      (Or.inr (by decide)) (by decide)

/-- Claim C9 as stated, applied to the score-less code: since the code
computes no similarity scores, all results tie, so the claimed ordering
requires results ordered by ascending document-then-chunk ordinal. -/
def tieBreakClaim : Prop :=
  ∀ (ftsMatch : List Char → List Char → Bool) (searchError : Bool)
    (table : List DBChunk) (question : List Char),
    List.Pairwise
      (fun a b => a.doc_filename = b.doc_filename → a.chunk_index ≤ b.chunk_index)
      (retrieveChunks ftsMatch searchError table question)

/-- Claim C9, counterexample: two matching chunks of the same document
stored with ordinals 5 then 0 come back in storage order `[5, 0]` — the
query has no ORDER BY and applies no tie-breaking reorder. -/
theorem tie_break_counterexample : ¬ tieBreakClaim := by
  intro h
  have := h (fun _ _ => true) false
    [⟨0, ['x'], none, none, none, 5, some ['d']⟩,
     ⟨1, ['x'], none, none, none, 0, some ['d']⟩] []
  rw [show retrieveChunks (fun _ _ => true) false
      [⟨0, ['x'], none, none, none, 5, some ['d']⟩,
       ⟨1, ['x'], none, none, none, 0, some ['d']⟩] [] =
      [⟨0, ['x'], none, none, none, 5, some ['d']⟩,
       ⟨1, ['x'], none, none, none, 0, some ['d']⟩] from by decide] at this
  rw [List.pairwise_cons] at this
  exact absurd (this.1 ⟨1, ['x'], none, none, none, 0, some ['d']⟩ (by simp) rfl) (by decide)

/-- Claim C9 (amended): retrieval computes a deterministic pure function of
the query and the stored table — identical calls on an identical table
return the identical list — and the result order is the table's storage
order (the result is a sublist of the table); no similarity ranking and no
document/ordinal tie-breaking reorder is applied. -/
theorem retrieval_storage_order :
    ∀ (ftsMatch : List Char → List Char → Bool) (searchError : Bool)
      (table : List DBChunk) (question : List Char),
      List.Sublist (retrieveChunks ftsMatch searchError table question) table := by
  intro f e table q
  rw [retrieveChunks]
  split
  · simp only [ftsResults]
    exact (List.take_sublist _ _).trans (List.filter_sublist _)
  · split
    · simp only [ilikeResults]
      exact (List.take_sublist _ _).trans (List.filter_sublist _)
    · exact List.nil_sublist _

/-- Claim C4 as stated (its budget part): the assembled context is subject
to a maximum total length — some bound `B` that no assembled context
exceeds, excess chunks being dropped from the tail. -/
def contextBudgetClaim : Prop :=
  ∃ B : Nat, ∀ relevantChunks : List DBChunk,
    (buildContext relevantChunks).length ≤ B

/-- Claim C4, counterexample: no bound exists — for any proposed budget `B`,
a single retrieved chunk with content of length `B + 1` produces a context
longer than `B`; the code never drops or truncates anything. -/
theorem context_budget_counterexample : ¬ contextBudgetClaim := by
  rintro ⟨B, hB⟩
  have := hB [⟨0, List.replicate (B + 1) 'a', none, none, none, 0, none⟩]
  rw [buildContext, if_pos (by simp)] at this
  simp only [contextBody, chunkBlock, List.append_nil, List.length_append,
    List.length_replicate] at this
  omega

theorem contextBody_mem (ch : DBChunk) :
    ∀ (rcs : List DBChunk) (i : Nat), ch ∈ rcs →
      ∃ pre post, contextBody i rcs = pre ++ ch.content ++ post := by
  intro rcs
  induction rcs with
  | nil => intro i h; simp at h
  | cons c rest ih =>
      intro i h
      rcases List.mem_cons.1 h with rfl | h'
      · exact ⟨provLine i ch, ('\n' :: ['\n']) ++ contextBody (i + 1) rest, by
          simp [contextBody, chunkBlock, List.append_assoc]⟩
      · rcases ih (i + 1) h' with ⟨pre, post, heq⟩
        exact ⟨chunkBlock i c ++ pre, post, by
          simp [contextBody, heq, List.append_assoc]⟩

/-- Claim C4 (amended): the assembled context contains every retrieved
chunk's content whole and in rank order, each prefixed by its provenance
tag; no context-length budget is applied (nothing is dropped or truncated),
and the sources list has exactly one entry per included chunk in the same
rank order. -/
theorem context_includes_all_chunks :
    ∀ (relevantChunks : List DBChunk),
      (buildSources relevantChunks).length = relevantChunks.length ∧
      ∀ ch ∈ relevantChunks, ∃ pre post,
        buildContext relevantChunks = pre ++ ch.content ++ post := by
  intro rcs
  refine ⟨by simp [buildSources], ?_⟩
  intro ch hch
  have hlen : 0 < rcs.length := List.length_pos.2 (by rintro rfl; simp at hch)
  rcases contextBody_mem ch rcs 0 hch with ⟨pre, post, heq⟩
  exact ⟨contextHeader ++ pre, post, by rw [buildContext, if_pos hlen, heq]; simp⟩

/-- Claim C4, witness: a singleton retrieval list yields one source entry
and a context containing the chunk content whole. -/
theorem context_includes_all_chunks_witness :
    (buildSources [⟨0, ['x'], none, none, none, 0, none⟩]).length = 1 ∧
    (∃ pre post, buildContext [⟨0, ['x'], none, none, none, 0, none⟩] =
      pre ++ ['x'] ++ post) := by
  constructor
  · exact (context_includes_all_chunks [⟨0, ['x'], none, none, none, 0, none⟩]).1
  · exact (context_includes_all_chunks [⟨0, ['x'], none, none, none, 0, none⟩]).2
      ⟨0, ['x'], none, none, none, 0, none⟩ (by decide)

/-- Claim C8: the system prompt always carries the strict rule instructing
the generator to answer "Information non trouvée dans la norme ISO
disponible." when the information is not in the context, rather than answer
from its own knowledge; with an empty context the explicit no-documents
message is appended in place of the context, and a nonempty context replaces
that block. -/
theorem empty_context_prompt_instruction :
    ∀ context : List Char,
      (context = [] →
        systemPrompt context = promptIntro ++ ruleNotFound ++ promptTail ++ noDocsMsg) ∧
      (context ≠ [] →
        systemPrompt context = promptIntro ++ ruleNotFound ++ promptTail ++ context) ∧
      (∃ pre post, systemPrompt context = pre ++ ruleNotFound ++ post) := by
  intro context
  refine ⟨?_, ?_, ?_⟩
  · intro h
    rw [systemPrompt, if_pos h]
  · intro h
    rw [systemPrompt, if_neg h]
  · exact ⟨promptIntro, promptTail ++ (if context = [] then noDocsMsg else context), by
      rw [systemPrompt]
      simp [List.append_assoc]⟩

/-- Claim C8, witness at the empty context and at a nonempty context. -/
theorem empty_context_prompt_instruction_witness :
    systemPrompt [] = promptIntro ++ ruleNotFound ++ promptTail ++ noDocsMsg ∧
    systemPrompt ['q'] = promptIntro ++ ruleNotFound ++ promptTail ++ ['q'] :=
  ⟨(empty_context_prompt_instruction []).1 rfl,
   (empty_context_prompt_instruction ['q']).2.1 (by decide)⟩
